import Mathlib

/-!
Shallow embedding of `src/tls/s2n_protocol_preferences.c` (s2n ALPN protocol
preference lists, RFC 7301 wire format).

Modelling conventions:
* A byte buffer (`struct s2n_blob` contents / the readable part of a
  `struct s2n_stuffer`) is a `List Nat` of byte values.
* A read cursor over a buffer is represented by the list of bytes still
  available to read (`size - read_cursor` bytes); advancing the cursor drops
  bytes from the front.
* Nullable pointers that a claim exercises are `Option`s.
* Fallible operations return `Except S2NError α`.
* Error kinds are modelled from the spec's taxonomy (section 7), since the
  safety macros (`ENSURE_REF`, `ENSURE_GT`, `GUARD_AS_RESULT`) and the errno
  constants behind them live in headers outside `src/`:
  `invalidArgument` for an absent required reference, `invalidProtocol` for
  `S2N_ERR_INVALID_APPLICATION_PROTOCOL` (named literally in the source), and
  `truncatedData` for a length byte of 0 or a length prefix exceeding the
  remaining bytes.
* Buffer sizes are `uint32_t` in C; all sizes reachable through this module
  stay at or below 65535, far below 2^32, so the additions in the source are
  exact and are modelled with `Nat` arithmetic.
-/

/-- Error kinds of the spec's taxonomy (spec section 7). -/
inductive S2NError where
  | invalidArgument
  | invalidProtocol
  | truncatedData
  deriving DecidableEq, Repr

/-- The core of `s2n_protocol_preferences_read` (source lines 20-34), acting on
the bytes still available to the cursor: consume one length byte `L`
(`s2n_stuffer_read_uint8`; fails when no byte is available), fail when `L = 0`
(`ENSURE_GT(length, 0)`), consume the next `L` bytes
(`s2n_stuffer_raw_read`; fails when fewer than `L` bytes remain), and yield
the `L`-byte identifier view together with the advanced cursor. -/
def s2n_protocol_preferences_read (rem : List Nat) :
    Except S2NError (List Nat × List Nat) :=
  match rem with
  | [] => .error .truncatedData
  | L :: rest =>
    if L = 0 then .error .truncatedData
    else if rest.length < L then .error .truncatedData
    else .ok (rest.take L, rest.drop L)

/-- `s2n_protocol_preferences_read` with its two `ENSURE_REF` argument checks
(source lines 22-23): the cursor argument and the destination blob pointer may
be absent, in which case the call fails before touching the buffer. -/
def s2n_protocol_preferences_read_checked (pp : Option (List Nat))
    (dest : Option Unit) : Except S2NError (List Nat × List Nat) :=
  match pp with
  | none => .error .invalidArgument
  | some rem =>
    match dest with
    | none => .error .invalidArgument
    | some _ => s2n_protocol_preferences_read rem

/-- `s2n_protocol_preferences_append` (source lines 59-84): reject an empty
identifier, reject a total encoded size above `UINT16_MAX`, otherwise grow the
buffer (`s2n_realloc` plus stuffer writes at offset `prev_len`) by the one
length byte followed by the payload. The payload list stands for the
`protocol_len` bytes at the `protocol` pointer, so its length is the
`uint8_t protocol_len` argument. -/
def s2n_protocol_preferences_append (application_protocols : List Nat)
    (protocol : List Nat) : Except S2NError (List Nat) :=
  if protocol.length = 0 then .error .invalidProtocol
  else if 65535 < application_protocols.length + 1 + protocol.length then
    .error .invalidProtocol
  else .ok (application_protocols ++ protocol.length :: protocol)

/-- RFC 7301 wire encoding of one identifier: one length byte then the payload
(the data model of spec section 3). -/
def encodeEntry (p : List Nat) : List Nat := p.length :: p

/-- RFC 7301 wire encoding of an ordered identifier list: entries concatenated
with no separator. -/
def encodeList : List (List Nat) → List Nat
  | [] => []
  | p :: ps => encodeEntry p ++ encodeList ps

theorem read_ok_shrinks {rem : List Nat} {pr : List Nat × List Nat}
    (h : s2n_protocol_preferences_read rem = .ok pr) :
    pr.2.length < rem.length := by
  cases rem with
  | nil => simp [s2n_protocol_preferences_read] at h
  | cons L rest =>
    unfold s2n_protocol_preferences_read at h
    by_cases hL : L = 0
    · simp [hL] at h
    · by_cases hlen : rest.length < L
      · simp [hL, hlen] at h
      · simp only [hL, hlen, if_false, if_neg] at h
        cases h
        simp only [List.length_drop, List.length_cons]
        omega

theorem read_ok_characterization {rem : List Nat} {entry rest₂ : List Nat}
    (h : s2n_protocol_preferences_read rem = .ok (entry, rest₂)) :
    ∃ L rest, rem = L :: rest ∧ L ≠ 0 ∧ L ≤ rest.length ∧
      entry = rest.take L ∧ rest₂ = rest.drop L := by
  cases rem with
  | nil => simp [s2n_protocol_preferences_read] at h
  | cons L rest =>
    unfold s2n_protocol_preferences_read at h
    by_cases hL : L = 0
    · simp [hL] at h
    · by_cases hlen : rest.length < L
      · simp [hL, hlen] at h
      · simp only [hL, hlen, if_false, if_neg] at h
        cases h
        exact ⟨L, rest, rfl, hL, by omega, rfl, rfl⟩

/-- Reading one encoded entry from the front of a buffer recovers exactly the
encoded identifier and leaves the remainder. -/
theorem read_encodeEntry (p rest : List Nat) (hp : p ≠ []) :
    s2n_protocol_preferences_read (encodeEntry p ++ rest) =
      .ok (p, rest) := by
  have hlen : p.length ≠ 0 := by simpa using hp
  unfold s2n_protocol_preferences_read encodeEntry
  simp only [List.cons_append]
  have hle : ¬ (p ++ rest).length < p.length := by
    simp [List.length_append]
  simp [hlen, hle, List.take_left, List.drop_left]

/-- The scan loop of `s2n_protocol_preferences_contain` (source lines 47-55):
while bytes remain, read one entry through the Entry Reader, propagating its
failure; stop with `true` at the first entry whose length and bytes both equal
the target (`match_against.size == protocol->size && memcmp(...) == 0`), and
with `false` once the cursor reaches the end of the buffer. -/
def containScan (target : List Nat) (rem : List Nat) : Except S2NError Bool :=
  match hrem : rem with
  | [] => .ok false
  | _ :: _ =>
    match hr : s2n_protocol_preferences_read rem with
    | .error e => .error e
    | .ok (entry, rest₂) =>
      if entry = target then .ok true
      else containScan target rest₂
termination_by rem.length
decreasing_by
  have := read_ok_shrinks hr
  simpa [hrem] using this

/-- `s2n_protocol_preferences_contain` (source lines 36-57). The pair returned
is (the call's result, the final value of the out-parameter `*contains`):
`*contains` is set to `false` immediately after `ENSURE_REF(contains)` and
before either input is validated, and is set to `true` only on an exact
match. The `Option` arguments model the nullable `protocol_preferences` and
`protocol` blob pointers. -/
def s2n_protocol_preferences_contain (protocol_preferences : Option (List Nat))
    (protocol : Option (List Nat)) : Except S2NError Unit × Bool :=
  match protocol_preferences with
  | none => (.error .invalidArgument, false)
  | some prefs =>
    match protocol with
    | none => (.error .invalidArgument, false)
    | some target =>
      match containScan target prefs with
      | .error e => (.error e, false)
      | .ok b => (.ok (), b)

/-- Iterated appends: apply `s2n_protocol_preferences_append` to each
identifier in order, propagating the first failure. This is the harness the
round-trip property quantifies over ("appended in order via the Appender"). -/
def appendAll (acc : List Nat) : List (List Nat) → Except S2NError (List Nat)
  | [] => .ok acc
  | p :: ps =>
    match s2n_protocol_preferences_append acc p with
    | .error e => .error e
    | .ok acc₂ => appendAll acc₂ ps

/-- The build loop of `s2n_protocol_preferences_set` (source lines 111-123):
for each candidate, `ENSURE(length < 256, S2N_ERR_INVALID_APPLICATION_PROTOCOL)`
and then append to the scratch buffer, propagating the first failure. -/
def buildAll (acc : List Nat) : List (List Nat) → Except S2NError (List Nat)
  | [] => .ok acc
  | p :: ps =>
    if 256 ≤ p.length then .error .invalidProtocol
    else
      match s2n_protocol_preferences_append acc p with
      | .error e => .error e
      | .ok acc₂ => buildAll acc₂ ps

/-- `s2n_protocol_preferences_set` (source lines 86-138). `none` models a NULL
`protocols` pointer and `some []` a zero `protocol_count`; both free the
previous blob, leaving the owner empty. Otherwise the candidates are built
into a fresh scratch buffer (the `count * 8` capacity hint of lines 104-109
only tunes reallocation and has no observable effect on the bytes built).
An `.ok` value is the buffer the owner ends up holding; `.error` means the
call returned before `s2n_free(application_protocols)` on line 126, so the
owner keeps its previous buffer. -/
def s2n_protocol_preferences_set (protocols : Option (List (List Nat))) :
    Except S2NError (List Nat) :=
  match protocols with
  | none => .ok []
  | some ps =>
    match ps with
    | [] => .ok []
    | _ :: _ => buildAll [] ps

/-- The owner's stored blob after a `s2n_protocol_preferences_set` call:
replaced on success, untouched on failure (the scratch buffer is discarded by
`DEFER_CLEANUP` and line 126 is never reached). -/
def ownerAfterSet (current : List Nat) (protocols : Option (List (List Nat))) :
    List Nat :=
  match s2n_protocol_preferences_set protocols with
  | .ok fresh => fresh
  | .error _ => current

/-- Repeated invocation of the Entry Reader until the cursor reaches the end
of the buffer, collecting the decoded identifiers in order (the decode side of
the round-trip property). -/
def readAllEntries (rem : List Nat) : Except S2NError (List (List Nat)) :=
  match hrem : rem with
  | [] => .ok []
  | _ :: _ =>
    match hr : s2n_protocol_preferences_read rem with
    | .error e => .error e
    | .ok (entry, rest₂) =>
      match readAllEntries rest₂ with
      | .error e => .error e
      | .ok ps => .ok (entry :: ps)
termination_by rem.length
decreasing_by
  have := read_ok_shrinks hr
  simpa [hrem] using this

theorem append_ok_of_valid (acc p : List Nat) (hp : p ≠ [])
    (hsz : acc.length + 1 + p.length ≤ 65535) :
    s2n_protocol_preferences_append acc p = .ok (acc ++ p.length :: p) := by
  have h0 : p.length ≠ 0 := by simpa using hp
  unfold s2n_protocol_preferences_append
  simp [h0, Nat.not_lt.mpr hsz]

theorem append_ok_inv {acc p buf : List Nat}
    (h : s2n_protocol_preferences_append acc p = .ok buf) :
    buf = acc ++ p.length :: p ∧ p ≠ [] ∧
      acc.length + 1 + p.length ≤ 65535 := by
  unfold s2n_protocol_preferences_append at h
  by_cases h0 : p.length = 0
  · simp [h0] at h
  · by_cases hsz : 65535 < acc.length + 1 + p.length
    · simp [h0, hsz] at h
    · simp only [h0, hsz, if_false, if_neg] at h
      cases h
      exact ⟨rfl, by simpa using h0, by omega⟩

theorem append_error_invalid {acc p : List Nat} {e : S2NError}
    (h : s2n_protocol_preferences_append acc p = .error e) :
    e = .invalidProtocol := by
  unfold s2n_protocol_preferences_append at h
  by_cases h0 : p.length = 0
  · simp [h0] at h
    exact h.symm
  · by_cases hsz : 65535 < acc.length + 1 + p.length
    · simp [h0, hsz] at h
      exact h.symm
    · simp [h0, hsz] at h


theorem appendAll_ok_encode : ∀ (ps : List (List Nat)) (acc buf : List Nat),
    appendAll acc ps = .ok buf →
    buf = acc ++ encodeList ps ∧ ∀ p ∈ ps, p ≠ [] := by
  intro ps
  induction ps with
  | nil =>
    intro acc buf h
    simp [appendAll] at h
    simp [encodeList, h]
  | cons p ps ih =>
    intro acc buf h
    unfold appendAll at h
    cases happ : s2n_protocol_preferences_append acc p with
    | error e => rw [happ] at h; cases h
    | ok acc₂ =>
      rw [happ] at h
      obtain ⟨hbuf, hne⟩ := ih acc₂ buf h
      obtain ⟨hacc₂, hp, _⟩ := append_ok_inv happ
      subst hacc₂ hbuf
      constructor
      · simp [encodeList, encodeEntry]
      · intro q hq
        rcases List.mem_cons.mp hq with hq | hq
        · exact hq ▸ hp
        · exact hne q hq

theorem readAllEntries_encode : ∀ (ps : List (List Nat)),
    (∀ p ∈ ps, p ≠ []) → readAllEntries (encodeList ps) = .ok ps := by
  intro ps
  induction ps with
  | nil => intro _; simp [encodeList, readAllEntries]
  | cons p ps ih =>
    intro h
    have hp : p ≠ [] := h p (List.mem_cons_self p ps)
    have hrest : ∀ q ∈ ps, q ≠ [] := fun q hq => h q (List.mem_cons_of_mem p hq)
    have hread : s2n_protocol_preferences_read (p.length :: (p ++ encodeList ps)) =
        .ok (p, encodeList ps) := by
      simpa [encodeEntry] using read_encodeEntry p (encodeList ps) hp
    have hcons : encodeList (p :: ps) = p.length :: (p ++ encodeList ps) := by
      simp [encodeList, encodeEntry]
    rw [hcons]
    rw [readAllEntries]
    rw [hread]
    simp [ih hrest]

theorem containScan_encode : ∀ (ps : List (List Nat)) (target : List Nat),
    (∀ p ∈ ps, p ≠ []) →
    containScan target (encodeList ps) = .ok (decide (target ∈ ps)) := by
  intro ps
  induction ps with
  | nil => intro target _; simp [encodeList, containScan]
  | cons p ps ih =>
    intro target h
    have hp : p ≠ [] := h p (List.mem_cons_self p ps)
    have hrest : ∀ q ∈ ps, q ≠ [] := fun q hq => h q (List.mem_cons_of_mem p hq)
    have hread : s2n_protocol_preferences_read (p.length :: (p ++ encodeList ps)) =
        .ok (p, encodeList ps) := by
      simpa [encodeEntry] using read_encodeEntry p (encodeList ps) hp
    have hcons : encodeList (p :: ps) = p.length :: (p ++ encodeList ps) := by
      simp [encodeList, encodeEntry]
    rw [hcons]
    rw [containScan]
    rw [hread]
    by_cases hpt : p = target
    · simp [hpt, List.mem_cons]
    · have hmem : (target ∈ p :: ps) = (target ∈ ps) := by
        have : target ∈ p :: ps ↔ target ∈ ps := by
          simp [List.mem_cons]
          intro heq
          exact absurd heq.symm hpt
        exact propext this
      simp only [hpt, if_false, if_neg, ih target hrest, hmem]

theorem buildAll_error_invalid : ∀ (ps : List (List Nat)) (acc : List Nat)
    (e : S2NError), buildAll acc ps = .error e → e = .invalidProtocol := by
  intro ps
  induction ps with
  | nil => intro acc e h; simp [buildAll] at h
  | cons p ps ih =>
    intro acc e h
    unfold buildAll at h
    by_cases hlen : 256 ≤ p.length
    · simp [hlen] at h
      exact h.symm
    · simp only [hlen, if_false, if_neg] at h
      cases happ : s2n_protocol_preferences_append acc p with
      | error e₂ =>
        rw [happ] at h
        cases h
        exact append_error_invalid happ
      | ok acc₂ =>
        rw [happ] at h
        exact ih acc₂ e h

theorem buildAll_fails : ∀ (ps : List (List Nat)) (acc : List Nat),
    acc.length ≤ 65535 →
    ((∃ p ∈ ps, p = [] ∨ 256 ≤ p.length) ∨
      65535 < acc.length + (ps.map fun p => 1 + p.length).sum) →
    buildAll acc ps = .error .invalidProtocol := by
  intro ps
  induction ps with
  | nil =>
    intro acc hacc h
    rcases h with ⟨p, hp, _⟩ | h
    · simp at hp
    · simp at h; omega
  | cons p ps ih =>
    intro acc hacc h
    unfold buildAll
    by_cases hlen : 256 ≤ p.length
    · simp [hlen]
    · simp only [hlen, if_false, if_neg]
      by_cases hp0 : p.length = 0
      · have : s2n_protocol_preferences_append acc p = .error .invalidProtocol := by
          unfold s2n_protocol_preferences_append
          simp [hp0]
        rw [this]
      · by_cases hsz : 65535 < acc.length + 1 + p.length
        · have : s2n_protocol_preferences_append acc p = .error .invalidProtocol := by
            unfold s2n_protocol_preferences_append
            simp [hp0, hsz]
          rw [this]
        · have hne : p ≠ [] := by simpa using hp0
          have happ := append_ok_of_valid acc p hne (by omega)
          rw [happ]
          apply ih
          · simp only [List.length_append, List.length_cons]
            omega
          · rcases h with ⟨q, hq, hbad⟩ | h
            · rcases List.mem_cons.mp hq with hq | hq
              · subst hq
                rcases hbad with hbad | hbad
                · exact absurd (by simp [hbad]) hp0
                · exact absurd hbad hlen
              · exact Or.inl ⟨q, hq, hbad⟩
            · right
              simp only [List.length_append, List.length_cons, List.map_cons,
                List.sum_cons] at *
              omega

theorem buildAll_ok_encode : ∀ (ps : List (List Nat)) (acc buf : List Nat),
    buildAll acc ps = .ok buf → buf = acc ++ encodeList ps := by
  intro ps
  induction ps with
  | nil =>
    intro acc buf h
    simp [buildAll] at h
    simp [encodeList, h]
  | cons p ps ih =>
    intro acc buf h
    unfold buildAll at h
    by_cases hlen : 256 ≤ p.length
    · simp [hlen] at h
    · simp only [hlen, if_false, if_neg] at h
      cases happ : s2n_protocol_preferences_append acc p with
      | error e => rw [happ] at h; cases h
      | ok acc₂ =>
        rw [happ] at h
        obtain ⟨hacc₂, _, _⟩ := append_ok_inv happ
        subst hacc₂
        have := ih _ _ h
        simpa [encodeList, encodeEntry] using this

/-- During the scan loop, entries that decode but do not match are skipped,
and a reader failure on the malformed tail is returned as-is. -/
theorem containScan_propagates : ∀ (entries : List (List Nat))
    (target tail : List Nat) (e : S2NError),
    (∀ p ∈ entries, p ≠ [] ∧ p ≠ target) → tail ≠ [] →
    s2n_protocol_preferences_read tail = .error e →
    containScan target (encodeList entries ++ tail) = .error e := by
  intro entries
  induction entries with
  | nil =>
    intro target tail e _ htail hread
    cases tail with
    | nil => exact absurd rfl htail
    | cons t ts =>
      rw [encodeList]
      simp only [List.nil_append]
      rw [containScan]
      rw [hread]
  | cons p ps ih =>
    intro target tail e h htail hread
    have hp : p ≠ [] := (h p (List.mem_cons_self p ps)).1
    have hpt : p ≠ target := (h p (List.mem_cons_self p ps)).2
    have hrest : ∀ q ∈ ps, q ≠ [] ∧ q ≠ target :=
      fun q hq => h q (List.mem_cons_of_mem p hq)
    have hread₂ : s2n_protocol_preferences_read
        (p.length :: (p ++ (encodeList ps ++ tail))) =
        .ok (p, encodeList ps ++ tail) := by
      simpa [encodeEntry] using read_encodeEntry p (encodeList ps ++ tail) hp
    have hcons : encodeList (p :: ps) ++ tail =
        p.length :: (p ++ (encodeList ps ++ tail)) := by
      simp [encodeList, encodeEntry]
    rw [hcons]
    rw [containScan]
    rw [hread₂]
    simp only [hpt, if_false, if_neg]
    exact ih target tail e hrest htail hread

/-- Claim C1: for every list of N identifiers (each 1-255 bytes) appended in
order to an initially empty buffer via the Appender, repeatedly invoking the
Entry Reader on the resulting buffer yields exactly those N identifiers, in
the same order, byte-for-byte, with the cursor ending exactly at the end of
the buffer (`readAllEntries` succeeds only once the remaining bytes are
exhausted). -/
theorem claim_c1_roundtrip (ps : List (List Nat)) (buf : List Nat)
    (hvalid : ∀ p ∈ ps, 1 ≤ p.length ∧ p.length ≤ 255)
    (happ : appendAll [] ps = .ok buf) :
    readAllEntries buf = .ok ps := by
  obtain ⟨hbuf, hne⟩ := appendAll_ok_encode ps [] buf happ
  rw [hbuf]
  simpa using readAllEntries_encode ps hne

theorem claim_c1_witness :
    readAllEntries [2, 104, 50, 8, 104, 116, 116, 112, 47, 49, 46, 49] =
      .ok [[104, 50], [104, 116, 116, 112, 47, 49, 46, 49]] := by
  apply claim_c1_roundtrip [[104, 50], [104, 116, 116, 112, 47, 49, 46, 49]]
  · decide
  · rfl

/-- Claim C2: for every owner state and every candidate collection, if any
candidate fails validation (empty, length at least 256, or total encoded size
exceeding 65535) then the List Replacer returns InvalidProtocol and the
owner's previously stored list is byte-for-byte unchanged; only when every
candidate succeeds is the old buffer replaced by the newly built one. -/
theorem claim_c2_set_all_or_nothing (current : List Nat)
    (ps : List (List Nat))
    (h : (∃ p ∈ ps, p = [] ∨ 256 ≤ p.length) ∨
      65535 < (ps.map fun p => 1 + p.length).sum) :
    s2n_protocol_preferences_set (some ps) = .error .invalidProtocol ∧
    ownerAfterSet current (some ps) = current := by
  cases ps with
  | nil =>
    exfalso
    rcases h with ⟨p, hp, _⟩ | h
    · simp at hp
    · simp at h
  | cons p rest =>
    have hbuild : buildAll [] (p :: rest) = .error .invalidProtocol := by
      apply buildAll_fails
      · simp
      · simpa using h
    have hset : s2n_protocol_preferences_set (some (p :: rest)) =
        .error .invalidProtocol := by
      simpa [s2n_protocol_preferences_set] using hbuild
    exact ⟨hset, by simp [ownerAfterSet, hset]⟩

theorem claim_c2_witness :
    s2n_protocol_preferences_set
        (some [[104, 50], [], [104, 116, 116, 112, 47, 49, 46, 49]]) =
      .error .invalidProtocol ∧
    ownerAfterSet [2, 104, 50]
        (some [[104, 50], [], [104, 116, 116, 112, 47, 49, 46, 49]]) =
      [2, 104, 50] :=
  claim_c2_set_all_or_nothing [2, 104, 50] _
    (Or.inl ⟨[], by simp, Or.inl rfl⟩)

/-- Claim C4: for every buffer of current size S and candidate of length L,
the Appender fails with InvalidProtocol if L = 0, fails with InvalidProtocol
if S + 1 + L > 65535, and succeeds otherwise, so a list whose encoded entries
sum exactly to 65535 bytes is accepted while one summing to 65536 is
rejected. -/
theorem claim_c4_append_size_boundaries (acc p : List Nat) :
    (p.length = 0 →
      s2n_protocol_preferences_append acc p = .error .invalidProtocol) ∧
    (65535 < acc.length + 1 + p.length →
      s2n_protocol_preferences_append acc p = .error .invalidProtocol) ∧
    (p.length ≠ 0 → acc.length + 1 + p.length ≤ 65535 →
      s2n_protocol_preferences_append acc p = .ok (acc ++ p.length :: p)) := by
  refine ⟨?_, ?_, ?_⟩
  · intro h0
    unfold s2n_protocol_preferences_append
    simp [h0]
  · intro hsz
    unfold s2n_protocol_preferences_append
    by_cases h0 : p.length = 0
    · simp [h0]
    · simp [h0, hsz]
  · intro h0 hsz
    exact append_ok_of_valid acc p (by simpa using h0) hsz

theorem claim_c4_witness :
    s2n_protocol_preferences_append (List.replicate 65533 7) [1] =
      .ok (List.replicate 65533 7 ++ [1, 1]) ∧
    s2n_protocol_preferences_append (List.replicate 65534 7) [1] =
      .error .invalidProtocol := by
  constructor
  · exact (claim_c4_append_size_boundaries (List.replicate 65533 7) [1]).2.2
      (by decide)
      (by rw [List.length_replicate]; norm_num)
  · exact (claim_c4_append_size_boundaries (List.replicate 65534 7) [1]).2.1
      (by rw [List.length_replicate]; norm_num)

/-- Claim C3: for every well-formed Preference List buffer (the encoding of a
list of identifiers, each nonempty and at most 255 bytes) and every target
identifier, the Membership Matcher succeeds and reports true exactly when
some entry of the list equals the target byte-for-byte (same length, same
bytes); in particular a strict prefix or superstring of an entry is not a
match, the scan stops at the first exact match, and a complete scan without a
match reports false. -/
theorem claim_c3_contain_membership (ps : List (List Nat)) (target : List Nat)
    (h : ∀ p ∈ ps, p ≠ [] ∧ p.length ≤ 255) :
    s2n_protocol_preferences_contain (some (encodeList ps)) (some target) =
      (.ok (), decide (target ∈ ps)) := by
  have hne : ∀ p ∈ ps, p ≠ [] := fun p hp => (h p hp).1
  have hscan := containScan_encode ps target hne
  simp [s2n_protocol_preferences_contain, hscan]

theorem claim_c3_witness :
    s2n_protocol_preferences_contain
        (some (encodeList [[104, 50], [104, 116, 116, 112, 47, 49, 46, 49]]))
        (some [104, 50]) = (.ok (), true) ∧
    s2n_protocol_preferences_contain
        (some (encodeList [[104, 50], [104, 116, 116, 112, 47, 49, 46, 49]]))
        (some [104, 51]) = (.ok (), false) ∧
    s2n_protocol_preferences_contain
        (some (encodeList [[104, 50], [104, 116, 116, 112, 47, 49, 46, 49]]))
        (some [104, 116, 116, 112, 47, 49, 46, 49]) = (.ok (), true) := by
  refine ⟨?_, ?_, ?_⟩
  · simpa using claim_c3_contain_membership
      [[104, 50], [104, 116, 116, 112, 47, 49, 46, 49]] [104, 50] (by decide)
  · simpa using claim_c3_contain_membership
      [[104, 50], [104, 116, 116, 112, 47, 49, 46, 49]] [104, 51] (by decide)
  · simpa using claim_c3_contain_membership
      [[104, 50], [104, 116, 116, 112, 47, 49, 46, 49]]
      [104, 116, 116, 112, 47, 49, 46, 49] (by decide)

/-- Claim C5: reading one entry fails with TruncatedData when the consumed
length byte L equals 0 or when fewer than L bytes remain, fails with
InvalidArgument when the buffer reference or the destination reference is
absent, and otherwise succeeds yielding a view of exactly L bytes. -/
theorem claim_c5_read_failure_conditions (pp : Option (List Nat))
    (dest : Option Unit) :
    ((pp = none ∨ dest = none) →
      s2n_protocol_preferences_read_checked pp dest =
        .error .invalidArgument) ∧
    (∀ L rest, pp = some (L :: rest) → dest = some () →
      ((L = 0 ∨ rest.length < L) →
        s2n_protocol_preferences_read_checked pp dest =
          .error .truncatedData) ∧
      (L ≠ 0 → L ≤ rest.length →
        s2n_protocol_preferences_read_checked pp dest =
          .ok (rest.take L, rest.drop L) ∧ (rest.take L).length = L)) := by
  constructor
  · intro h
    rcases h with h | h
    · subst h; rfl
    · subst h
      cases pp with
      | none => rfl
      | some rem => rfl
  · intro L rest hpp hdest
    subst hpp
    subst hdest
    constructor
    · intro h
      by_cases hL : L = 0
      · simp [s2n_protocol_preferences_read_checked,
          s2n_protocol_preferences_read, hL]
      · rcases h with h | h
        · exact absurd h hL
        · simp [s2n_protocol_preferences_read_checked,
            s2n_protocol_preferences_read, hL, h]
    · intro h0 hle
      constructor
      · simp [s2n_protocol_preferences_read_checked,
          s2n_protocol_preferences_read, h0, Nat.not_lt.mpr hle]
      · simp [List.length_take, Nat.min_eq_left hle]

theorem claim_c5_witness :
    s2n_protocol_preferences_read_checked none (some ()) =
      .error .invalidArgument ∧
    s2n_protocol_preferences_read_checked (some [2, 104, 50]) none =
      .error .invalidArgument ∧
    s2n_protocol_preferences_read_checked (some [5, 104, 116, 116, 112])
      (some ()) = .error .truncatedData ∧
    s2n_protocol_preferences_read_checked (some [0, 104, 50]) (some ()) =
      .error .truncatedData ∧
    s2n_protocol_preferences_read_checked (some [2, 104, 50]) (some ()) =
      .ok ([104, 50], []) := by
  refine ⟨?_, ?_, ?_, ?_, ?_⟩
  · exact (claim_c5_read_failure_conditions none (some ())).1 (Or.inl rfl)
  · exact (claim_c5_read_failure_conditions (some [2, 104, 50]) none).1
      (Or.inr rfl)
  · exact ((claim_c5_read_failure_conditions (some [5, 104, 116, 116, 112])
      (some ())).2 5 [104, 116, 116, 112] rfl rfl).1 (Or.inr (by norm_num))
  · exact ((claim_c5_read_failure_conditions (some [0, 104, 50])
      (some ())).2 0 [104, 50] rfl rfl).1 (Or.inl rfl)
  · have h := ((claim_c5_read_failure_conditions (some [2, 104, 50])
      (some ())).2 2 [104, 50] rfl rfl).2 (by norm_num) (by norm_num)
    simpa using h.1

/-- Claim C6: whenever the Entry Reader fails on the remaining (malformed)
bytes mid-scan, after any number of well-formed non-matching entries, the
Membership Matcher returns that failure with the reported boolean still
false, never a boolean verdict; in particular the raw buffer
0x05 68 74 74 70 (length prefix 5 with only 4 payload bytes) yields
TruncatedData. -/
theorem claim_c6_contain_propagates (entries : List (List Nat))
    (target tail : List Nat) (e : S2NError)
    (h : ∀ p ∈ entries, p ≠ [] ∧ p ≠ target) (htail : tail ≠ [])
    (hread : s2n_protocol_preferences_read tail = .error e) :
    s2n_protocol_preferences_contain (some (encodeList entries ++ tail))
      (some target) = (.error e, false) := by
  have hscan := containScan_propagates entries target tail e h htail hread
  simp [s2n_protocol_preferences_contain, hscan]

theorem claim_c6_witness :
    s2n_protocol_preferences_contain (some [5, 104, 116, 116, 112])
      (some [104, 50]) = (.error .truncatedData, false) := by
  have h := claim_c6_contain_propagates [] [104, 50] [5, 104, 116, 116, 112]
    .truncatedData (by simp) (by simp)
    (by simp [s2n_protocol_preferences_read])
  simpa [encodeList] using h

/-- Claim C7: for every candidate collection, a candidate identifier of
exactly 255 bytes is accepted by the List Replacer, and any candidate of 256
or more bytes makes the whole call fail with InvalidProtocol before the
owner's list is rebuilt (the owner keeps its previous buffer). -/
theorem claim_c7_set_length_boundary (p : List Nat) (ps : List (List Nat))
    (current : List Nat) :
    (p.length = 255 →
      s2n_protocol_preferences_set (some [p]) = .ok (encodeEntry p)) ∧
    (256 ≤ p.length → p ∈ ps →
      s2n_protocol_preferences_set (some ps) = .error .invalidProtocol ∧
      ownerAfterSet current (some ps) = current) := by
  constructor
  · intro h255
    have hne : p ≠ [] := by
      intro hnil
      rw [hnil] at h255
      simp at h255
    have hlt : ¬ 256 ≤ p.length := by omega
    have happ := append_ok_of_valid [] p hne (by simp [h255])
    simp [s2n_protocol_preferences_set, buildAll, hlt, happ, encodeEntry]
  · intro h256 hmem
    rcases ps with _ | ⟨q, rest⟩
    · simp at hmem
    · have hbuild : buildAll [] (q :: rest) = .error .invalidProtocol :=
        buildAll_fails (q :: rest) [] (by simp)
          (Or.inl ⟨p, hmem, Or.inr h256⟩)
      have hset : s2n_protocol_preferences_set (some (q :: rest)) =
          .error .invalidProtocol := by
        simpa [s2n_protocol_preferences_set] using hbuild
      exact ⟨hset, by simp [ownerAfterSet, hset]⟩

theorem claim_c7_witness :
    s2n_protocol_preferences_set (some [List.replicate 255 97]) =
      .ok (encodeEntry (List.replicate 255 97)) ∧
    s2n_protocol_preferences_set (some [List.replicate 256 97]) =
      .error .invalidProtocol := by
  constructor
  · exact (claim_c7_set_length_boundary (List.replicate 255 97) [] []).1
      (by rw [List.length_replicate])
  · exact ((claim_c7_set_length_boundary (List.replicate 256 97)
      [List.replicate 256 97] []).2
      (by rw [List.length_replicate]) (List.mem_cons_self _ _)).1

/-- Claim C8: appending the identifier h2 (bytes 68 32) and then http/1.1
(bytes 68 74 74 70 2F 31 2E 31) to an initially empty buffer succeeds and
produces exactly the 12-byte RFC 7301 sequence
02 68 32 08 68 74 74 70 2F 31 2E 31. -/
theorem claim_c8_concrete_wire :
    (s2n_protocol_preferences_append [] [104, 50]).bind
        (fun buf => s2n_protocol_preferences_append buf
          [104, 116, 116, 112, 47, 49, 46, 49]) =
      .ok [2, 104, 50, 8, 104, 116, 116, 112, 47, 49, 46, 49] := by
  rfl

/-- Claim C9: for every buffer of current size S and every successful append
of an identifier of length L, the first S bytes of the resulting buffer are
the old buffer unchanged, byte S holds the value L, the next L bytes hold the
identifier, and the resulting size is exactly S + 1 + L. -/
theorem claim_c9_append_frame (acc p buf : List Nat)
    (h : s2n_protocol_preferences_append acc p = .ok buf) :
    buf.take acc.length = acc ∧
    buf.drop acc.length = p.length :: p ∧
    buf.length = acc.length + 1 + p.length := by
  obtain ⟨hbuf, _, _⟩ := append_ok_inv h
  subst hbuf
  refine ⟨List.take_left acc _, List.drop_left acc _, ?_⟩
  simp only [List.length_append, List.length_cons]
  omega

theorem claim_c9_witness :
    ([2, 104, 50, 2, 104, 51] : List Nat).take 3 = [2, 104, 50] ∧
    ([2, 104, 50, 2, 104, 51] : List Nat).drop 3 = [2, 104, 51] ∧
    ([2, 104, 50, 2, 104, 51] : List Nat).length = 6 := by
  have h := claim_c9_append_frame [2, 104, 50] [104, 51]
    [2, 104, 50, 2, 104, 51] rfl
  exact ⟨h.1, h.2.1, h.2.2⟩

/-- Claim C10: the Membership Matcher's out-parameter is assigned false before
any input validation or scanning, so whenever the call returns an error the
reported boolean is false, and the boolean is true only when the call
returned success. -/
theorem claim_c10_contain_flag (pp target : Option (List Nat)) :
    (∀ e, (s2n_protocol_preferences_contain pp target).1 = .error e →
      (s2n_protocol_preferences_contain pp target).2 = false) ∧
    ((s2n_protocol_preferences_contain pp target).2 = true →
      (s2n_protocol_preferences_contain pp target).1 = .ok ()) := by
  cases pp with
  | none =>
    refine ⟨fun e _ => rfl, fun h => ?_⟩
    simp [s2n_protocol_preferences_contain] at h
  | some prefs =>
    cases target with
    | none =>
      refine ⟨fun e _ => rfl, fun h => ?_⟩
      simp [s2n_protocol_preferences_contain] at h
    | some t =>
      cases hscan : containScan t prefs with
      | error e₂ =>
        refine ⟨fun e _ => ?_, fun h => ?_⟩
        · simp [s2n_protocol_preferences_contain, hscan]
        · simp [s2n_protocol_preferences_contain, hscan] at h
      | ok b =>
        refine ⟨fun e he => ?_, fun _ => ?_⟩
        · simp [s2n_protocol_preferences_contain, hscan] at he
        · simp [s2n_protocol_preferences_contain, hscan]

theorem claim_c10_witness :
    (s2n_protocol_preferences_contain none none).2 = false :=
  (claim_c10_contain_flag none none).1 .invalidArgument rfl
